import Mathlib

/-!
Verification of the MLIR interpreter's tensor-dialect evaluators
(`tools/mlir_interpreter/dialects/tensor.cc`).

Tensors are modelled densely: a shape (list of int64 sizes) together with the
row-major contents of the backing buffer.  Machine `int64_t` is modelled as
`Int` (the claims under study never exercise overflow).  The interpreter
framework pieces that live outside the tensor dialect file (the evaluation
state, `interpret`, `fill`, `makeTensor`, `replaceDynamicVals`,
`reshapeTensor`) are modelled from the specification, as noted on each
definition.
-/

namespace TensorInterp

/-- Modelled from the spec: the per-evaluation interpreter state.  §3
"EvaluationFailure": a sticky flag plus messages, set by `addFailure`; §7: the
flag, once set, is sticky for the remainder of the evaluation. We record the
list of failure messages; the flag is "some failure has been recorded". -/
structure InterpreterState where
  failures : List String
deriving DecidableEq

/-- Modelled from the spec (§6 "Failure channel"): records a failure message;
the failure flag is set from then on. -/
def addFailure (s : InterpreterState) (msg : String) : InterpreterState :=
  ⟨s.failures ++ [msg]⟩

/-- Modelled from the spec (§3): whether the sticky failure flag is set. -/
def hasFailure (s : InterpreterState) : Bool :=
  !s.failures.isEmpty

/-- An index tuple (one int64 coordinate per dimension). -/
abbrev Index := List Int

/-- The dense model of an `InterpreterValue` holding a tensor: the sizes of
its view and the row-major contents of its buffer. -/
structure Tensor (α : Type) where
  sizes : List Int
  data : List α
deriving DecidableEq

/-- Number of elements of a shape (product of the sizes, as a `Nat`). -/
def numElements (sizes : List Int) : Nat :=
  (sizes.map Int.toNat).prod

/-- Row-major linear position of an index tuple inside a shape
(`sum(idx[i] * strides[i])` for the default row-major strides). -/
def linearIndex : List Int → Index → Int
  | _ :: ss, i :: is => i * ss.prod + linearIndex ss is
  | _, _ => 0

/-- Modelled from the spec (§3 "View"): `inBounds(indices)` is true iff every
coordinate is within `[0, sizes[i])` (one coordinate per dimension). -/
def inBounds : List Int → Index → Bool
  | [], [] => true
  | s :: ss, i :: is => decide (0 ≤ i) && decide (i < s) && inBounds ss is
  | _, _ => false

/-- Modelled from the spec (§3 "View"): `indices()` enumerates all valid index
tuples in row-major (last dimension fastest) order. -/
def indicesOf : List Int → List Index
  | [] => [[]]
  | s :: ss =>
    (List.range s.toNat).flatMap fun i =>
      (indicesOf ss).map fun idx => (i : Int) :: idx

/-- `InterpreterValue::extractElement`: read the scalar at a coordinate
(callers bounds-check first; out-of-range reads are modelled by the default
element, standing for the unspecified value an unchecked read yields). -/
def extractElement [Inhabited α] (t : Tensor α) (indices : Index) : α :=
  t.data.getD (linearIndex t.sizes indices).toNat default

/-- `InterpreterValue::insertElement`: overwrite the scalar at a coordinate in
place (on the model's copy of the buffer). -/
def insertElement (t : Tensor α) (indices : Index) (v : α) : Tensor α :=
  ⟨t.sizes, t.data.set (linearIndex t.sizes indices).toNat v⟩

/-- Modelled from the spec (§3 lifecycle): the "make tensor" factory allocates
a tensor of the given shape, zero-initialized (default element). -/
def makeTensor [Inhabited α] (sizes : List Int) : Tensor α :=
  ⟨sizes, List.replicate (numElements sizes) default⟩

/-- `InterpreterValue::clone`: a new exclusively-owned buffer with identical
contents. -/
def clone (t : Tensor α) : Tensor α :=
  ⟨t.sizes, t.data⟩

/-- Modelled from the spec (§4.1): `typedAlike(newSizes)` allocates a fresh
value of the same element type with shape `newSizes`; its contents (unspecified
until filled) are modelled by the default element. -/
def typedAlike [Inhabited α] (_t : Tensor α) (newSizes : List Int) : Tensor α :=
  makeTensor newSizes

/-- Well-formedness of the dense model: the buffer holds exactly one element
per valid index. -/
def wf (t : Tensor α) : Prop :=
  t.data.length = numElements t.sizes

/-- Modelled from the spec (§4.1): `fill(generatorFn)` computes and writes a
value for every index tuple in row-major order.  The generator sees the
evaluation state and the partially-filled result (the C++ lambdas capture both
by reference) and returns the updated state with the value to write. -/
def fillS (t : Tensor α) (st : InterpreterState)
    (f : InterpreterState → Tensor α → Index → InterpreterState × α) :
    InterpreterState × Tensor α :=
  (indicesOf t.sizes).foldl
    (fun p idx =>
      let r := f p.1 p.2 idx
      (r.1, insertElement p.2 idx r.2))
    (st, t)

/-- The row-major element sequence of a tensor (reading every index in
row-major order). -/
def rowMajorElements [Inhabited α] (t : Tensor α) : List α :=
  (indicesOf t.sizes).map (extractElement t)

/-- Modelled from the spec (§4.2): `replaceDynamicVals` walks the static list
left to right; each sentinel (negative) entry consumes the next dynamic value
in order; other entries pass through unchanged. -/
def replaceDynamicVals : List Int → List Int → List Int
  | [], _ => []
  | s :: ss, dyn =>
    if s < 0 then dyn.headD 0 :: replaceDynamicVals ss dyn.tail
    else s :: replaceDynamicVals ss dyn

/-- Modelled from the spec (§4.2): `reshapeTensor` reads the elements of the
tensor in row-major order and writes them, in row-major order, into a freshly
allocated value of the new shape. -/
def reshapeTensor [Inhabited α] (t : Tensor α) (newSizes : List Int) : Tensor α :=
  ⟨newSizes, rowMajorElements t⟩

/-- A region callback (§4.4): invoking the external interpreter on the
operation's region with one index tuple as arguments; it may set the failure
flag and returns the region's result values. -/
abbrev Region (α : Type) := Index → InterpreterState → InterpreterState × List α

/-! ## The evaluators of `tensor.cc` -/

/-- `extract` (tensor.cc): bounds-check, on failure raise an evaluation
failure and return an empty value (modelled by the default element); otherwise
read the element. -/
def extract [Inhabited α] (state : InterpreterState) (tensor : Tensor α)
    (indices : Index) : InterpreterState × α :=
  if inBounds tensor.sizes indices then (state, extractElement tensor indices)
  else (addFailure state "array index out of bounds", default)

/-- `fromElements` (tensor.cc): allocate a tensor of the declared shape and
write the scalar operands positionally, pairing the row-major indices with the
operands (the pairing stops at the shorter of the two sequences). -/
def fromElements [Inhabited α] (state : InterpreterState) (shape : List Int)
    (elements : List α) : InterpreterState × Tensor α :=
  (state,
    ((indicesOf (makeTensor (α := α) shape).sizes).zip elements).foldl
      (fun acc p => insertElement acc p.1 p.2) (makeTensor shape))

/-- `insert` (tensor.cc): clone the destination, bounds-check the coordinate;
in bounds, write the value into the clone; out of bounds, raise an evaluation
failure; either way return the clone. -/
def insert [Inhabited α] (state : InterpreterState) (value : α)
    (tensor : Tensor α) (indices : Index) : InterpreterState × Tensor α :=
  let result := clone tensor
  if inBounds result.sizes indices then
    (state, insertElement result indices value)
  else
    (addFailure state "array index out of bounds", result)

/-- `collapseShape` (tensor.cc): one output size per reassociation group, the
product of the grouped input sizes; then reshape. -/
def collapseShape [Inhabited α] (t : Tensor α)
    (reassociation : List (List Nat)) : Tensor α :=
  let sizes := reassociation.map fun indices =>
    indices.foldl (fun size dim => size * t.sizes.getD dim 0) 1
  reshapeTensor t sizes

/-- The per-group body of `expandShape` (tensor.cc, lines 84-92): walk the
group's output dimensions; a negative (dynamic) declared size becomes the
pending dynamic index, every other size divides the running group size
(C++ `int64_t` division truncates). -/
def expandGroup (sizes : List Int) (size0 : Int) (dstIndices : List Nat) :
    Int × Option Nat :=
  dstIndices.foldl
    (fun p dim =>
      if sizes.getD dim 0 < 0 then (p.1, some dim)
      else (p.1.tdiv (sizes.getD dim 0), p.2))
    (size0, none)

/-- `expandShape` (tensor.cc), shape computation: start from the declared
result shape and, group by group, solve the group's dynamic size (if any) from
the input size of the group's source dimension. -/
def expandShapeSizes (tsizes : List Int) (reassociation : List (List Nat))
    (declared : List Int) : List Int :=
  (reassociation.enum.foldl
    (fun sizes p =>
      let g := expandGroup sizes (tsizes.getD p.1 0) p.2
      match g.2 with
      | some d => sizes.set d g.1
      | none => sizes)
    declared)

/-- `expandShape` (tensor.cc): compute the solved output sizes, then reshape. -/
def expandShape [Inhabited α] (t : Tensor α) (reassociation : List (List Nat))
    (declared : List Int) : Tensor α :=
  reshapeTensor t (expandShapeSizes t.sizes reassociation declared)

/-- The row-major (unit-innermost) strides of a shape, as produced for a
freshly allocated view. -/
def rowMajorStrides : List Int → List Int
  | [] => []
  | _ :: ss => ss.prod :: rowMajorStrides ss

/-- The rank-reduction loop of `extractSlice` (tensor.cc, lines 116-133): scan
the output view; a dimension whose static size attribute (at position
`numDropped + dim`) is 1 and which is absent-or-not-1 at position `dim` of the
declared result shape is erased from the sizes and strides. -/
def dropUnitDims (staticSizes resultSizes : List Int) (numDropped dim : Nat)
    (sizes strides : List Int) : List Int × List Int :=
  if h : dim < sizes.length then
    if staticSizes.getD (numDropped + dim) 0 = 1 ∧
        (resultSizes.length ≤ dim ∨ resultSizes.getD dim 0 ≠ 1) then
      dropUnitDims staticSizes resultSizes (numDropped + 1) dim
        (sizes.eraseIdx dim) (strides.eraseIdx dim)
    else
      dropUnitDims staticSizes resultSizes numDropped (dim + 1) sizes strides
  else (sizes, strides)
termination_by sizes.length - dim
decreasing_by
  · have : (sizes.eraseIdx dim).length = sizes.length - 1 :=
      List.length_eraseIdx_of_lt h
    omega
  · omega

/-- The contents of the slice copied by `extractSlice` (tensor.cc, lines
107-114): for every output coordinate, read
`tensor[coord * stride + offset]`. -/
def extractSliceData [Inhabited α] (tensor : Tensor α)
    (offsets sizes strides : List Int) : List α :=
  (indicesOf sizes).map fun indices =>
    extractElement tensor
      (List.zipWith3 (fun i st off => i * st + off) indices strides offsets)

/-- `extractSlice` (tensor.cc): copy the slice contents into a tensor of the
resolved sizes, then run the rank-reduction loop over the output view's sizes
and strides.  Removing unit dimensions does not change the row-major buffer,
so the dense model keeps the data and replaces the sizes. -/
def extractSlice [Inhabited α] (tensor : Tensor α)
    (offsets sizes strides : List Int) (staticSizes resultShape : List Int) :
    Tensor α :=
  let out : Tensor α :=
    ⟨sizes, extractSliceData tensor offsets sizes strides⟩
  let v := dropUnitDims staticSizes resultShape 0 0 out.sizes
    (rowMajorStrides out.sizes)
  ⟨v.1, out.data⟩

/-- The inserted-unit-dimension scan of `insertSlice` (tensor.cc, lines
150-161): walk the static sizes with a cursor into the source sizes; a static
size with no matching source size (cursor exhausted, or mismatched while the
size is non-dynamic) is an inserted dimension, otherwise the cursor advances. -/
def insertedDims : List Int → List Int → Nat → List Nat
  | [], _, _ => []
  | size :: staticRest, srcSizes, dim =>
    match srcSizes with
    | [] => dim :: insertedDims staticRest [] (dim + 1)
    | s :: ss =>
      if s ≠ size ∧ 0 ≤ size then dim :: insertedDims staticRest (s :: ss) (dim + 1)
      else insertedDims staticRest ss (dim + 1)

/-- The write loop of `insertSlice` (tensor.cc, lines 163-174): for every
source index, insert a 0 coordinate at each inserted unit dimension, map
through strides and offsets, and write the source element into the
destination. -/
def insertSliceWrite [Inhabited α] (src dest : Tensor α)
    (offsets strides : List Int) (inserted : List Nat) : Tensor α :=
  (indicesOf src.sizes).foldl
    (fun d srcIndices =>
      let srcWithInsertedDims :=
        inserted.foldl (fun l dim => l.insertIdx dim 0) srcIndices
      let dstIndices :=
        List.zipWith3 (fun srcIndex stride offset => srcIndex * stride + offset)
          srcWithInsertedDims strides offsets
      insertElement d dstIndices (extractElement src srcIndices))
    dest

/-- `insertSlice` (tensor.cc): shared evaluator of `tensor.insert_slice`
(one result) and `tensor.parallel_insert_slice` (no result).  With one result
the destination is cloned first and the clone is written and returned; with no
result the destination operand's own buffer is written in place.  The first
component is the final contents of the destination operand's buffer, the
second the returned results. -/
def insertSlice [Inhabited α] (numResults : Nat) (src dest : Tensor α)
    (offsets strides : List Int) (staticSizes : List Int) :
    Tensor α × List (Tensor α) :=
  if numResults = 1 then
    let d := clone dest
    (dest,
      [insertSliceWrite src d offsets strides (insertedDims staticSizes src.sizes 0)])
  else
    (insertSliceWrite src dest offsets strides
      (insertedDims staticSizes src.sizes 0), [])

/-- The per-coordinate body of `generate` (tensor.cc, lines 187-194): invoke
the region on the coordinate; if the (sticky) failure flag is set afterwards,
read back the current value of the result at that coordinate, else take the
region's first result. -/
def generateStep [Inhabited α] (region : Region α) (st : InterpreterState)
    (result : Tensor α) (indices : Index) : InterpreterState × α :=
  let r := region indices st
  if hasFailure r.1 then (r.1, extractElement result indices)
  else (r.1, r.2.headD default)

/-- `generate` (tensor.cc): resolve the declared shape's dynamic sizes, make a
zero-initialized tensor, and fill it per coordinate through the region. -/
def generate [Inhabited α] (state : InterpreterState)
    (declaredShape dynamicSizes : List Int) (region : Region α) :
    InterpreterState × Tensor α :=
  let sizes := replaceDynamicVals declaredShape dynamicSizes
  let result : Tensor α := makeTensor sizes
  fillS result state (generateStep region)

/-- The per-coordinate body of `pad` (tensor.cc, lines 224-234): subtract the
low pads from the output coordinate; in bounds of the input, copy the input
element; otherwise invoke the region on the output coordinate and take its
first result (with no check of the failure flag). -/
def padStep [Inhabited α] (tensor : Tensor α) (lows : List Int)
    (region : Region α) (st : InterpreterState) (_result : Tensor α)
    (outIndex : Index) : InterpreterState × α :=
  let inIndex := (outIndex.zip lows).map fun p => p.1 - p.2
  if inBounds tensor.sizes inIndex then (st, extractElement tensor inIndex)
  else
    let r := region outIndex st
    (r.1, r.2.headD default)

/-- `pad` (tensor.cc): resolve the low/high pad amounts, allocate the result
with sizes `size + low + high`, and fill it per coordinate. -/
def pad [Inhabited α] (state : InterpreterState) (tensor : Tensor α)
    (staticLow staticHigh dynamicLows dynamicHighs : List Int)
    (region : Region α) : InterpreterState × Tensor α :=
  let lows := replaceDynamicVals staticLow dynamicLows
  let highs := replaceDynamicVals staticHigh dynamicHighs
  let resultSizes :=
    List.zipWith3 (fun size low high => size + low + high) tensor.sizes lows highs
  let result := typedAlike tensor resultSizes
  fillS result state (padStep tensor lows region)

/-- Transcription of the rank-reduction rule as the specification words it:
walking the static size attributes and the declared result shape dimension by
dimension in order, a dimension whose static size is 1 and which is not
present with size 1 at the corresponding position of the declared result shape
is deleted from the sizes and strides; a kept dimension consumes one position
of the declared result shape. -/
def rankReduceSpec : List Int → List Int → List Int → List Int →
    List Int × List Int
  | st :: staticRest, results, sz :: szs, str :: strs =>
    if st = 1 ∧ (results.length = 0 ∨ results.headD 0 ≠ 1) then
      rankReduceSpec staticRest results szs strs
    else
      let p := rankReduceSpec staticRest (results.drop 1) szs strs
      (sz :: p.1, str :: p.2)
  | _, _, szs, strs => (szs, strs)

/-! ## Index arithmetic lemmas -/

theorem numElements_nil : numElements [] = 1 := rfl

theorem numElements_cons (s : Int) (ss : List Int) :
    numElements (s :: ss) = s.toNat * numElements ss := by
  simp [numElements]

theorem length_indicesOf (sizes : List Int) :
    (indicesOf sizes).length = numElements sizes := by
  induction sizes with
  | nil => rfl
  | cons s ss ih =>
    simp only [indicesOf, numElements_cons, List.length_flatMap,
      Function.comp_def, List.length_map, ih]
    rw [List.map_const', List.sum_replicate, List.length_range, smul_eq_mul]

theorem prod_eq_cast_numElements {sizes : List Int}
    (h : ∀ s ∈ sizes, 0 ≤ s) : sizes.prod = (numElements sizes : Int) := by
  induction sizes with
  | nil => rfl
  | cons s ss ih =>
    have hs : 0 ≤ s := h s (by simp)
    have ihh := ih fun x hx => h x (by simp [hx])
    rw [List.prod_cons, numElements_cons, ihh]
    push_cast
    rw [Int.toNat_of_nonneg hs]

theorem pos_of_numElements_pos {sizes : List Int}
    (h : 0 < numElements sizes) : ∀ s ∈ sizes, 0 < s := by
  induction sizes with
  | nil => simp
  | cons s ss ih =>
    rw [numElements_cons] at h
    have hs : 0 < s.toNat := by
      rcases Nat.eq_zero_or_pos s.toNat with h0 | h0
      · rw [h0, Nat.zero_mul] at h; exact absurd h (lt_irrefl 0)
      · exact h0
    have hss : 0 < numElements ss := by
      rcases Nat.eq_zero_or_pos (numElements ss) with h0 | h0
      · rw [h0, Nat.mul_zero] at h; exact absurd h (lt_irrefl 0)
      · exact h0
    intro x hx
    rcases List.mem_cons.mp hx with rfl | hx
    · omega
    · exact ih hss x hx

theorem range_flatMap_mul (a b : Nat) :
    (List.range a).flatMap (fun i => (List.range b).map (fun k => i * b + k)) =
      List.range (a * b) := by
  induction a with
  | zero => simp
  | succ n ih =>
    rw [List.range_succ, List.flatMap_append, ih, Nat.succ_mul, List.range_add]
    simp [Nat.add_comm]

theorem linearIndex_map_indicesOf (sizes : List Int) :
    (indicesOf sizes).map (linearIndex sizes) =
      (List.range (numElements sizes)).map (fun k : Nat => (k : Int)) := by
  induction sizes with
  | nil => rfl
  | cons s ss ih =>
    simp only [indicesOf, List.map_flatMap]
    rcases Nat.eq_zero_or_pos (numElements ss) with h0 | hpos
    · have hemp : indicesOf ss = [] :=
        List.eq_nil_of_length_eq_zero (by rw [length_indicesOf, h0])
      simp [hemp, numElements_cons, h0]
    · have hprod : ss.prod = (numElements ss : Int) :=
        prod_eq_cast_numElements fun x hx => le_of_lt (pos_of_numElements_pos hpos x hx)
      have step : (fun i : Nat =>
            ((indicesOf ss).map fun idx => (i : Int) :: idx).map (linearIndex (s :: ss))) =
          fun i : Nat =>
            ((List.range (numElements ss)).map fun k => i * numElements ss + k).map
              (fun k : Nat => (k : Int)) := by
        funext i
        rw [List.map_map, List.map_map]
        have e1 : (linearIndex (s :: ss)) ∘ (fun idx => (i : Int) :: idx) =
            (fun z => (i : Int) * ss.prod + z) ∘ (linearIndex ss) := by
          funext idx; simp [linearIndex, Function.comp]
        rw [e1, ← List.map_map, ih, List.map_map]
        apply List.map_congr_left
        intro k _
        simp only [Function.comp_apply, hprod]
        push_cast
        ring
      rw [step, ← List.map_flatMap, range_flatMap_mul, numElements_cons]

theorem inBounds_cons {s : Int} {ss : List Int} {i : Int} {is : Index} :
    inBounds (s :: ss) (i :: is) = true ↔
      0 ≤ i ∧ i < s ∧ inBounds ss is = true := by
  simp [inBounds, and_assoc]

theorem linearIndex_bounds {sizes : List Int} {idx : Index}
    (h : inBounds sizes idx = true) :
    0 ≤ linearIndex sizes idx ∧ linearIndex sizes idx < sizes.prod := by
  induction sizes generalizing idx with
  | nil =>
    cases idx with
    | nil => simp [linearIndex]
    | cons i is => simp [inBounds] at h
  | cons s ss ih =>
    cases idx with
    | nil => simp [inBounds] at h
    | cons i is =>
      obtain ⟨h1, h2, h3⟩ := inBounds_cons.mp h
      obtain ⟨ihl, ihr⟩ := ih h3
      have hP : 0 < ss.prod := lt_of_le_of_lt ihl ihr
      simp only [linearIndex, List.prod_cons]
      constructor
      · exact add_nonneg (mul_nonneg h1 (le_of_lt hP)) ihl
      · calc i * ss.prod + linearIndex ss is
            < i * ss.prod + ss.prod := by linarith
          _ = (i + 1) * ss.prod := by ring
          _ ≤ s * ss.prod :=
            mul_le_mul_of_nonneg_right (Int.lt_iff_add_one_le.mp h2) (le_of_lt hP)

theorem linearIndex_inj {sizes : List Int} {idx1 idx2 : Index}
    (h1 : inBounds sizes idx1 = true) (h2 : inBounds sizes idx2 = true)
    (he : linearIndex sizes idx1 = linearIndex sizes idx2) : idx1 = idx2 := by
  induction sizes generalizing idx1 idx2 with
  | nil =>
    cases idx1 with
    | nil =>
      cases idx2 with
      | nil => rfl
      | cons j js => simp [inBounds] at h2
    | cons i is => simp [inBounds] at h1
  | cons s ss ih =>
    cases idx1 with
    | nil => simp [inBounds] at h1
    | cons i is =>
      cases idx2 with
      | nil => simp [inBounds] at h2
      | cons j js =>
        obtain ⟨hi0, his, hbs1⟩ := inBounds_cons.mp h1
        obtain ⟨hj0, hjs, hbs2⟩ := inBounds_cons.mp h2
        obtain ⟨ha0, haP⟩ := linearIndex_bounds hbs1
        obtain ⟨hb0, hbP⟩ := linearIndex_bounds hbs2
        have hP : 0 < ss.prod := lt_of_le_of_lt ha0 haP
        simp only [linearIndex] at he
        have hij : i = j := by
          by_contra hne
          rcases lt_or_gt_of_ne hne with hlt | hgt
          · have hle : i + 1 ≤ j := Int.lt_iff_add_one_le.mp hlt
            nlinarith [mul_le_mul_of_nonneg_right hle (le_of_lt hP)]
          · have hle : j + 1 ≤ i := Int.lt_iff_add_one_le.mp hgt
            nlinarith [mul_le_mul_of_nonneg_right hle (le_of_lt hP)]
        subst hij
        have : linearIndex ss is = linearIndex ss js := by linarith
        rw [ih hbs1 hbs2 this]

theorem inBounds_of_mem_indicesOf {sizes : List Int} {idx : Index}
    (h : idx ∈ indicesOf sizes) : inBounds sizes idx = true := by
  induction sizes generalizing idx with
  | nil =>
    simp only [indicesOf, List.mem_singleton] at h
    subst h; rfl
  | cons s ss ih =>
    simp only [indicesOf, List.mem_flatMap, List.mem_map, List.mem_range] at h
    obtain ⟨i, hi, idx', hidx', rfl⟩ := h
    rw [inBounds_cons]
    exact ⟨Int.natCast_nonneg i, by omega, ih hidx'⟩

theorem all_pos_of_inBounds {sizes : List Int} {idx : Index}
    (h : inBounds sizes idx = true) : ∀ s ∈ sizes, 0 < s := by
  induction sizes generalizing idx with
  | nil => simp
  | cons s ss ih =>
    cases idx with
    | nil => simp [inBounds] at h
    | cons i is =>
      obtain ⟨h1, h2, h3⟩ := inBounds_cons.mp h
      intro x hx
      rcases List.mem_cons.mp hx with rfl | hx
      · omega
      · exact ih h3 x hx

theorem toNat_linearIndex_lt {sizes : List Int} {idx : Index}
    (h : inBounds sizes idx = true) :
    (linearIndex sizes idx).toNat < numElements sizes := by
  obtain ⟨h0, hlt⟩ := linearIndex_bounds h
  have hprod : sizes.prod = (numElements sizes : Int) :=
    prod_eq_cast_numElements fun x hx => le_of_lt (all_pos_of_inBounds h x hx)
  omega

theorem getD_indicesOf_linearIndex {sizes : List Int} {idx : Index}
    (h : inBounds sizes idx = true) :
    (indicesOf sizes).getD (linearIndex sizes idx).toNat [] = idx := by
  have hk : (linearIndex sizes idx).toNat < (indicesOf sizes).length := by
    rw [length_indicesOf]; exact toNat_linearIndex_lt h
  rw [List.getD_eq_getElem _ _ hk]
  have hmap := linearIndex_map_indicesOf sizes
  have e := congrArg (fun l => l.getD (linearIndex sizes idx).toNat 0) hmap
  simp only at e
  rw [List.getD_eq_getElem _ _ (by simpa using hk), List.getElem_map,
    List.getD_eq_getElem _ _ (by simp [List.length_range, ← length_indicesOf]; exact hk),
    List.getElem_map, List.getElem_range] at e
  have hmem : (indicesOf sizes)[(linearIndex sizes idx).toNat] ∈ indicesOf sizes :=
    List.getElem_mem hk
  refine linearIndex_inj (inBounds_of_mem_indicesOf hmem) h ?_
  rw [e, Int.toNat_of_nonneg (linearIndex_bounds h).1]

theorem extractElement_mk_map [Inhabited α] {sizes : List Int} {idx : Index}
    (g : Index → α) (h : inBounds sizes idx = true) :
    extractElement ⟨sizes, (indicesOf sizes).map g⟩ idx = g idx := by
  unfold extractElement
  have hk : (linearIndex sizes idx).toNat < (indicesOf sizes).length := by
    rw [length_indicesOf]; exact toNat_linearIndex_lt h
  rw [List.getD_eq_getElem _ _ (by simpa using hk), List.getElem_map]
  have := getD_indicesOf_linearIndex h
  rw [List.getD_eq_getElem _ _ hk] at this
  rw [this]

theorem map_getD_range (l : List α) (d : α) :
    (List.range l.length).map (fun k => l.getD k d) = l := by
  induction l with
  | nil => rfl
  | cons x xs ih =>
    rw [List.length_cons, List.range_succ_eq_map, List.map_cons, List.map_map]
    simp only [Function.comp_def, List.getD_cons_zero, List.getD_cons_succ]
    rw [ih]

theorem rowMajorElements_eq_data [Inhabited α] {t : Tensor α} (h : wf t) :
    rowMajorElements t = t.data := by
  unfold rowMajorElements extractElement
  have e1 : (fun idx => t.data.getD (linearIndex t.sizes idx).toNat default)
      = (fun z : Int => t.data.getD z.toNat default) ∘ linearIndex t.sizes := rfl
  rw [e1, ← List.map_map, linearIndex_map_indicesOf, List.map_map]
  have e2 : ((fun z : Int => t.data.getD z.toNat default) ∘ (fun k : Nat => (k : Int)))
      = fun k : Nat => t.data.getD k default := by
    funext k; simp
  rw [e2, show numElements t.sizes = t.data.length from h.symm, map_getD_range]

/-! ## Sequential-write lemmas -/

theorem set_take_succ (d : List α) :
    ∀ (k : Nat) (e : α), k < d.length →
      (d.set k e).take (k + 1) = d.take k ++ [e] := by
  induction d with
  | nil => intro k e h; simp at h
  | cons x xs ih =>
    intro k e h
    cases k with
    | zero => simp
    | succ k =>
      rw [List.set_cons_succ, List.take_succ_cons, List.take_succ_cons,
        ih k e (by simpa using Nat.lt_of_succ_lt_succ h)]
      rfl

theorem foldl_set_range' (es : List α) :
    ∀ (n k : Nat) (d : List α), k + n ≤ d.length →
      ((List.range' k n).zip es).foldl (fun l p => l.set p.1 p.2) d =
        d.take k ++ es.take n ++ d.drop (k + min n es.length) := by
  induction es with
  | nil =>
    intro n k d _
    simp [List.take_append_drop]
  | cons e es ih =>
    intro n k d hlen
    cases n with
    | zero => simp [List.take_append_drop]
    | succ m =>
      have hk : k < d.length := by omega
      rw [List.range'_succ, List.zip_cons_cons, List.foldl_cons,
        ih m (k + 1) (d.set k e) (by rw [List.length_set]; omega)]
      rw [set_take_succ d k e hk, List.drop_set_of_lt e d (by omega)]
      have hmin : k + min (m + 1) (es.length + 1) = k + 1 + min m es.length := by
        rw [Nat.succ_min_succ]; omega
      rw [List.take_succ_cons, List.length_cons, hmin]
      simp [List.append_assoc]

/-! ## Fill lemmas -/

theorem foldl_insertElement_comp {β : Type} (φ : β → Index) (ψ : β → α)
    (L : List β) (t : Tensor α) :
    L.foldl (fun a x => insertElement a (φ x) (ψ x)) t =
      ⟨t.sizes, L.foldl
        (fun d x => d.set (linearIndex t.sizes (φ x)).toNat (ψ x)) t.data⟩ := by
  induction L generalizing t with
  | nil => rfl
  | cons p L ih =>
    rw [List.foldl_cons, ih]
    rfl

theorem fillS_of_pure [Inhabited α] (t : Tensor α) (st : InterpreterState)
    (f : InterpreterState → Tensor α → Index → InterpreterState × α)
    (g : Index → α) (hf : ∀ s a idx, f s a idx = (s, g idx)) :
    fillS t st f =
      (st, (indicesOf t.sizes).foldl
        (fun a idx => insertElement a idx (g idx)) t) := by
  unfold fillS
  have key : ∀ (L : List Index) (s0 : InterpreterState) (t0 : Tensor α),
      L.foldl (fun p idx =>
        let r := f p.1 p.2 idx
        (r.1, insertElement p.2 idx r.2)) (s0, t0) =
      (s0, L.foldl (fun a idx => insertElement a idx (g idx)) t0) := by
    intro L
    induction L with
    | nil => intro s0 t0; rfl
    | cons idx L ih =>
      intro s0 t0
      rw [List.foldl_cons, List.foldl_cons]
      simp only [hf] at ih ⊢
      exact ih s0 (insertElement t0 idx (g idx))
  exact key _ st t

theorem fillS_pure [Inhabited α] (t : Tensor α) (st : InterpreterState)
    (f : InterpreterState → Tensor α → Index → InterpreterState × α)
    (g : Index → α) (hf : ∀ s a idx, f s a idx = (s, g idx)) (h : wf t) :
    fillS t st f = (st, ⟨t.sizes, (indicesOf t.sizes).map g⟩) := by
  rw [fillS_of_pure t st f g hf,
    foldl_insertElement_comp (fun idx => idx) g (indicesOf t.sizes) t]
  have hdata : (indicesOf t.sizes).foldl
      (fun d idx => d.set (linearIndex t.sizes idx).toNat (g idx)) t.data =
      (indicesOf t.sizes).map g := by
    have e1 : (indicesOf t.sizes).foldl
        (fun d idx => d.set (linearIndex t.sizes idx).toNat (g idx)) t.data =
        ((indicesOf t.sizes).map
          (fun idx => ((linearIndex t.sizes idx).toNat, g idx))).foldl
          (fun l p => l.set p.1 p.2) t.data := by
      rw [List.foldl_map]
    rw [e1, ← List.zip_map' (fun idx => (linearIndex t.sizes idx).toNat) g]
    have e2 : (indicesOf t.sizes).map
        (fun idx => (linearIndex t.sizes idx).toNat) =
        List.range (numElements t.sizes) := by
      have : (fun idx => (linearIndex t.sizes idx).toNat) =
          (Int.toNat ∘ linearIndex t.sizes) := rfl
      rw [this, ← List.map_map, linearIndex_map_indicesOf, List.map_map]
      have : (Int.toNat ∘ fun k : Nat => (k : Int)) = id := by
        funext k; simp
      rw [this, List.map_id]
    have hlen : (0 : Nat) + numElements t.sizes ≤ t.data.length := by
      rw [h]; omega
    rw [e2, List.range_eq_range', foldl_set_range' _ (numElements t.sizes) 0
      t.data hlen]
    have hmlen : ((indicesOf t.sizes).map g).length = numElements t.sizes := by
      rw [List.length_map, length_indicesOf]
    rw [List.take_zero, List.nil_append, ← hmlen, List.take_length,
      Nat.min_self, List.drop_eq_nil_of_le (by rw [h, hmlen]; omega),
      List.append_nil]
  rw [hdata]

theorem getD_set_self (l : List α) (k : Nat) (v d : α) (h : k < l.length) :
    (l.set k v).getD k d = v := by
  rw [List.getD_eq_getElem _ _ (by rw [List.length_set]; exact h)]
  exact List.getElem_set_self (by rw [List.length_set]; exact h)

theorem getD_set_ne (l : List α) (i k : Nat) (v d : α) (h : i ≠ k) :
    (l.set i v).getD k d = l.getD k d := by
  by_cases hk : k < l.length
  · rw [List.getD_eq_getElem _ _ (by rw [List.length_set]; exact hk),
      List.getD_eq_getElem _ _ hk]
    exact List.getElem_set_ne h (by rw [List.length_set]; exact hk)
  · rw [List.getD_eq_default _ _ (by rw [List.length_set]; omega),
      List.getD_eq_default _ _ (by omega)]

theorem wf_makeTensor [Inhabited α] (sizes : List Int) :
    wf (makeTensor (α := α) sizes) := by
  simp [wf, makeTensor]

theorem hasFailure_addFailure (s : InterpreterState) (msg : String) :
    hasFailure (addFailure s msg) = true := by
  simp [hasFailure, addFailure]

theorem clone_eq (t : Tensor α) : clone t = t := rfl

/-! ## Claim theorems -/

/-- C10: if `from-elements` is supplied with fewer scalar operands than the
declared shape's element count, it writes only the first `len(operands)`
positions in row-major order and leaves the remaining elements at the freshly
allocated tensor's default (zero-initialized) value, with no out-of-bounds
write (the buffer keeps exactly the allocated length) and no evaluation
failure (the state is untouched); operands beyond the declared element count
are silently ignored. -/
theorem fromElements_partial_fill [Inhabited α] (state : InterpreterState)
    (shape : List Int) (elements : List α) :
    fromElements state shape elements =
      (state, ⟨shape, elements.take (numElements shape) ++
        List.replicate (numElements shape - elements.length) default⟩) ∧
    wf (fromElements state shape elements).2 := by
  have hmain : fromElements state shape elements =
      (state, ⟨shape, elements.take (numElements shape) ++
        List.replicate (numElements shape - elements.length) default⟩) := by
    unfold fromElements makeTensor
    have e1 := foldl_insertElement_comp (α := α) Prod.fst Prod.snd
      ((indicesOf shape).zip elements)
      ⟨shape, List.replicate (numElements shape) default⟩
    simp only at e1
    rw [e1]
    have e2 : ((indicesOf shape).zip elements).foldl
        (fun d x => d.set (linearIndex shape x.1).toNat x.2)
        (List.replicate (numElements shape) default) =
        (((indicesOf shape).zip elements).map
          (Prod.map (fun idx => (linearIndex shape idx).toNat) id)).foldl
          (fun l p => l.set p.1 p.2)
          (List.replicate (numElements shape) default) := by
      rw [List.foldl_map]
      rfl
    rw [e2, ← List.zip_map, List.map_id]
    have e3 : (indicesOf shape).map (fun idx => (linearIndex shape idx).toNat) =
        List.range (numElements shape) := by
      have h1 : (fun idx => (linearIndex shape idx).toNat) =
          (Int.toNat ∘ linearIndex shape) := rfl
      rw [h1, ← List.map_map, linearIndex_map_indicesOf, List.map_map]
      have h2 : (Int.toNat ∘ fun k : Nat => (k : Int)) = id := by
        funext k; simp
      rw [h2, List.map_id]
    rw [e3, List.range_eq_range',
      foldl_set_range' elements (numElements shape) 0
        (List.replicate (numElements shape) default)
        (by rw [List.length_replicate]; omega)]
    rw [List.take_zero, List.nil_append, Nat.zero_add, List.drop_replicate]
    have : numElements shape - min (numElements shape) elements.length =
        numElements shape - elements.length := by omega
    rw [this]
  refine ⟨hmain, ?_⟩
  rw [hmain]
  simp only [wf]
  rw [List.length_append, List.length_take, List.length_replicate]
  omega

/-- C8: the `insert` evaluator clones the destination and bounds-checks the
coordinate: in bounds it writes the value into the clone and returns it with
the state untouched; out of bounds it records an evaluation failure and
returns the clone with contents identical to the original tensor. -/
theorem insert_clone_bounds [Inhabited α] (state : InterpreterState) (value : α)
    (tensor : Tensor α) (indices : Index) :
    (inBounds tensor.sizes indices = true →
      insert state value tensor indices =
        (state, insertElement tensor indices value)) ∧
    (inBounds tensor.sizes indices = false →
      insert state value tensor indices =
        (addFailure state "array index out of bounds", tensor) ∧
      hasFailure (insert state value tensor indices).1 = true ∧
      (insert state value tensor indices).2.data = tensor.data) := by
  constructor
  · intro h
    unfold insert
    rw [clone_eq, if_pos h]
  · intro h
    unfold insert
    rw [clone_eq, if_neg (by rw [h]; exact Bool.false_ne_true)]
    exact ⟨rfl, hasFailure_addFailure state _, rfl⟩

/-- Witness for C8 at a concrete tensor, exercising both the in-bounds and the
out-of-bounds branch. -/
theorem insert_clone_bounds_witness :
    insert ⟨[]⟩ (9 : Int) ⟨[2], [5, 6]⟩ [1] =
      (⟨[]⟩, insertElement ⟨[2], [5, 6]⟩ [1] 9) ∧
    insert ⟨[]⟩ (9 : Int) ⟨[2], [5, 6]⟩ [2] =
      (addFailure ⟨[]⟩ "array index out of bounds", ⟨[2], [5, 6]⟩) := by
  exact ⟨(insert_clone_bounds ⟨[]⟩ 9 ⟨[2], [5, 6]⟩ [1]).1 (by decide),
    ((insert_clone_bounds ⟨[]⟩ 9 ⟨[2], [5, 6]⟩ [2]).2 (by decide)).1⟩

/-- C7: `insert_slice` (the one-result form) clones the destination before
writing, so the destination operand's buffer is left unchanged, and its single
result equals the tensor the no-result (`parallel_insert_slice`) form writes
into the destination operand in place; the parallel form returns no result. -/
theorem insertSlice_clone_discipline [Inhabited α] (src dest : Tensor α)
    (offsets strides staticSizes : List Int) :
    (insertSlice 1 src dest offsets strides staticSizes).1 = dest ∧
    (insertSlice 1 src dest offsets strides staticSizes).2 =
      [(insertSlice 0 src dest offsets strides staticSizes).1] ∧
    (insertSlice 0 src dest offsets strides staticSizes).2 = [] := by
  unfold insertSlice
  rw [clone_eq]
  exact ⟨rfl, by simp, by simp⟩

/-- C3: single-point update locality of `insert` and `extract`: extracting at
the inserted coordinate returns the inserted value, and extracting at any
other in-bounds coordinate returns the same value as extracting from the
original tensor. -/
theorem insert_extract_locality [Inhabited α] (t : Tensor α) (i j : Index)
    (v : α) (st : InterpreterState) (hw : wf t)
    (hi : inBounds t.sizes i = true) (hj : inBounds t.sizes j = true)
    (hne : j ≠ i) :
    (extract st (insert st v t i).2 i).2 = v ∧
    (extract st (insert st v t i).2 j).2 = (extract st t j).2 := by
  have hins : (insert st v t i).2 = insertElement t i v := by
    unfold insert
    rw [clone_eq, if_pos hi]
  have hki : (linearIndex t.sizes i).toNat < t.data.length := by
    rw [hw]; exact toNat_linearIndex_lt hi
  constructor
  · rw [hins]
    unfold extract
    rw [if_pos (show inBounds (insertElement t i v).sizes i = true from hi)]
    unfold extractElement insertElement
    exact getD_set_self t.data _ v default hki
  · rw [hins]
    unfold extract
    rw [if_pos (show inBounds (insertElement t i v).sizes j = true from hj),
      if_pos hj]
    unfold extractElement insertElement
    simp only
    apply getD_set_ne
    intro hcontra
    apply hne
    apply linearIndex_inj hj hi
    have h0i := (linearIndex_bounds hi).1
    have h0j := (linearIndex_bounds hj).1
    omega

/-- Witness for C3 at a concrete tensor and pair of indices. -/
theorem insert_extract_locality_witness :
    (extract ⟨[]⟩ (insert ⟨[]⟩ (9 : Int) ⟨[2, 2], [1, 2, 3, 4]⟩ [0, 1]).2
      [0, 1]).2 = 9 ∧
    (extract ⟨[]⟩ (insert ⟨[]⟩ (9 : Int) ⟨[2, 2], [1, 2, 3, 4]⟩ [0, 1]).2
      [1, 0]).2 = (extract ⟨[]⟩ (⟨[2, 2], [1, 2, 3, 4]⟩ : Tensor Int) [1, 0]).2 := by
  exact insert_extract_locality ⟨[2, 2], [1, 2, 3, 4]⟩ [0, 1] [1, 0] 9 ⟨[]⟩
    rfl (by decide) (by decide) (by decide)

/-- The region of the C1 scenario: records an evaluation failure at index 1
and succeeds (returning `100 + i`) at every other index `i`. -/
def genFailRegion : Region Int := fun idx st =>
  if idx = [1] then (addFailure st "generate region failure", [])
  else (st, [100 + idx.headD 0])

/-- C1, counterexample: over shape `[3]` with a region that fails for index 1
and succeeds for indices 0 and 2, the element at index 2 does NOT hold the
region-computed value `102`: the failure flag is sticky, so `generate` falls
back to the default-initialized value at index 2 as well. -/
theorem generate_failure_index2_counterexample :
    ¬ (extractElement (generate ⟨[]⟩ [3] [] genFailRegion).2 [2] = 100 + 2) := by
  decide

/-- C1 (amended): evaluating `generate` over shape `[3]` with a region that
sets the failure flag for index 1 (and succeeds for indices 0 and 2) yields
the region-computed value at index 0, the tensor's default-initialized value
at indices 1 AND 2 (the sticky failure flag suppresses the region's result at
every later coordinate too), and the failure flag is set exactly once. -/
theorem generate_failure_amended :
    (genFailRegion [2] ⟨[]⟩).2 = [102] ∧
    (generate ⟨[]⟩ [3] [] genFailRegion).2.data = [100, 0, 0] ∧
    extractElement (generate ⟨[]⟩ [3] [] genFailRegion).2 [0] = 100 ∧
    extractElement (generate ⟨[]⟩ [3] [] genFailRegion).2 [1] = 0 ∧
    extractElement (generate ⟨[]⟩ [3] [] genFailRegion).2 [2] = 0 ∧
    (generate ⟨[]⟩ [3] [] genFailRegion).1.failures.length = 1 := by
  decide

/-- A region that records an evaluation failure on every invocation and
returns the value 42. -/
def failRegion42 : Region Int := fun _ st =>
  (addFailure st "region failure", [42])

/-- C2, counterexample: `pad` does not substitute the fallback value on region
failure: with a region that fails and returns 42, the failure flag is set, yet
the output at pad coordinate 0 is not the value already present in the freshly
allocated output tensor at that coordinate — the region's 42 is used instead. -/
theorem pad_no_failure_check_counterexample :
    hasFailure (pad ⟨[]⟩ (⟨[2], [5, 6]⟩ : Tensor Int) [1] [1] [] []
      failRegion42).1 = true ∧
    ¬ (extractElement (pad ⟨[]⟩ (⟨[2], [5, 6]⟩ : Tensor Int) [1] [1] [] []
        failRegion42).2 [0] =
      extractElement (typedAlike (⟨[2], [5, 6]⟩ : Tensor Int) [4]) [0]) := by
  decide

/-- C2 (amended): only `generate` checks the evaluation-failure flag
immediately after its region invocation, substituting the value already in the
output at that coordinate; `pad` performs no such check and uses the region
invocation's first result unconditionally.  Concretely, with the
always-failing region returning 42, `generate` yields default values while
`pad` writes 42 at its pad coordinates. -/
theorem region_failure_check_amended [Inhabited α] (region : Region α)
    (st : InterpreterState) (acc t : Tensor α) (indices outIndex : Index)
    (lows : List Int)
    (hfail : hasFailure (region indices st).1 = true)
    (hout : inBounds t.sizes ((outIndex.zip lows).map fun p => p.1 - p.2)
      = false) :
    generateStep region st acc indices =
      ((region indices st).1, extractElement acc indices) ∧
    padStep t lows region st acc outIndex =
      ((region outIndex st).1, (region outIndex st).2.headD default) ∧
    (generate ⟨[]⟩ [2] [] failRegion42).2.data = [0, 0] ∧
    (pad ⟨[]⟩ (⟨[2], [5, 6]⟩ : Tensor Int) [1] [1] [] [] failRegion42).2.data =
      [42, 5, 6, 42] := by
  refine ⟨?_, ?_, by decide, by decide⟩
  · simp only [generateStep, hfail, if_true]
  · simp only [padStep, hout, Bool.false_eq_true, if_false]

/-- Witness for C2's amended theorem at concrete inputs: the always-failing
region makes `generateStep` read back the existing element while `padStep`
takes the region's first result. -/
theorem region_failure_check_amended_witness :
    generateStep failRegion42 ⟨[]⟩ (⟨[4], [0, 0, 0, 0]⟩ : Tensor Int) [0] =
      ((failRegion42 [0] ⟨[]⟩).1,
        extractElement (⟨[4], [0, 0, 0, 0]⟩ : Tensor Int) [0]) ∧
    padStep (⟨[2], [5, 6]⟩ : Tensor Int) [1] failRegion42 ⟨[]⟩
        (⟨[4], [0, 0, 0, 0]⟩ : Tensor Int) [0] =
      ((failRegion42 [0] ⟨[]⟩).1, (failRegion42 [0] ⟨[]⟩).2.headD default) := by
  have h := region_failure_check_amended failRegion42 ⟨[]⟩
    (⟨[4], [0, 0, 0, 0]⟩ : Tensor Int) (⟨[2], [5, 6]⟩ : Tensor Int) [0] [0] [1]
    (by decide) (by decide)
  exact ⟨h.1, h.2.1⟩

/-- A region computing a pure function of the index tuple, never failing. -/
def pureRegion (f : Index → α) : Region α := fun idx st => (st, [f idx])

/-- C9: `pad` leaves the state untouched for a non-failing region, produces a
result whose size in every dimension is `inputSize + low + high` for the
resolved low/high pad amounts, copies the input element whenever the
corresponding input coordinate (`outCoord - low` per dimension) is in bounds
and otherwise computes the pad value by invoking the region on the output
coordinate; in particular, padding `[5, 6]` with low 1, high 1 and a region
constantly returning 0 yields `[0, 5, 6, 0]`. -/
theorem pad_semantics [Inhabited α] (st : InterpreterState) (t : Tensor α)
    (staticLow staticHigh dynamicLows dynamicHighs : List Int)
    (f : Index → α) :
    (pad st t staticLow staticHigh dynamicLows dynamicHighs
      (pureRegion f)).1 = st ∧
    (pad st t staticLow staticHigh dynamicLows dynamicHighs
      (pureRegion f)).2.sizes =
      List.zipWith3 (fun size low high => size + low + high) t.sizes
        (replaceDynamicVals staticLow dynamicLows)
        (replaceDynamicVals staticHigh dynamicHighs) ∧
    (∀ outIndex : Index,
      inBounds (List.zipWith3 (fun size low high => size + low + high) t.sizes
        (replaceDynamicVals staticLow dynamicLows)
        (replaceDynamicVals staticHigh dynamicHighs)) outIndex = true →
      extractElement (pad st t staticLow staticHigh dynamicLows dynamicHighs
        (pureRegion f)).2 outIndex =
        if inBounds t.sizes ((outIndex.zip (replaceDynamicVals staticLow
            dynamicLows)).map fun p => p.1 - p.2) = true then
          extractElement t ((outIndex.zip (replaceDynamicVals staticLow
            dynamicLows)).map fun p => p.1 - p.2)
        else f outIndex) ∧
    (pad ⟨[]⟩ (⟨[2], [5, 6]⟩ : Tensor Int) [1] [1] [] []
      (pureRegion fun _ => 0)).2.data = [0, 5, 6, 0] := by
  have hstep : ∀ (s : InterpreterState) (a : Tensor α) (idx : Index),
      padStep t (replaceDynamicVals staticLow dynamicLows) (pureRegion f)
        s a idx =
      (s, if inBounds t.sizes ((idx.zip (replaceDynamicVals staticLow
            dynamicLows)).map fun p => p.1 - p.2) = true then
          extractElement t ((idx.zip (replaceDynamicVals staticLow
            dynamicLows)).map fun p => p.1 - p.2)
        else f idx) := by
    intro s a idx
    by_cases h : inBounds t.sizes ((idx.zip (replaceDynamicVals staticLow
      dynamicLows)).map fun p => p.1 - p.2) = true
    · simp [padStep, h]
    · simp [padStep, pureRegion, h]
  have hpad : pad st t staticLow staticHigh dynamicLows dynamicHighs
      (pureRegion f) =
      fillS (makeTensor (List.zipWith3 (fun size low high => size + low + high)
        t.sizes (replaceDynamicVals staticLow dynamicLows)
        (replaceDynamicVals staticHigh dynamicHighs))) st
        (padStep t (replaceDynamicVals staticLow dynamicLows)
          (pureRegion f)) := rfl
  rw [hpad, fillS_pure _ st _ _ hstep (wf_makeTensor _)]
  refine ⟨rfl, rfl, ?_, by decide⟩
  intro outIndex hb
  exact extractElement_mk_map _ hb

/-- Witness for C9 at the concrete pad scenario, discharging the in-bounds
hypothesis of the per-coordinate clause at output coordinate 2. -/
theorem pad_semantics_witness :
    extractElement (pad ⟨[]⟩ (⟨[2], [5, 6]⟩ : Tensor Int) [1] [1] [] []
      (pureRegion fun _ => 0)).2 [2] = 6 := by
  have h := (pad_semantics ⟨[]⟩ (⟨[2], [5, 6]⟩ : Tensor Int) [1] [1] [] []
    (fun _ => 0)).2.2.1 [2] (by decide)
  rw [if_pos (by decide)] at h
  rw [h]
  decide

theorem getD_nonneg {l : List Int} (h : ∀ x ∈ l, 0 ≤ x) (n : Nat) :
    0 ≤ l.getD n 0 := by
  by_cases hn : n < l.length
  · rw [List.getD_eq_getElem _ _ hn]
    exact h _ (List.getElem_mem hn)
  · rw [List.getD_eq_default _ _ (by omega)]

theorem expandGroup_snd_of_nonneg {sizes : List Int}
    (h : ∀ x ∈ sizes, 0 ≤ x) (g : List Nat) (p : Int × Option Nat) :
    (g.foldl (fun p dim =>
      if sizes.getD dim 0 < 0 then (p.1, some dim)
      else (p.1.tdiv (sizes.getD dim 0), p.2)) p).2 = p.2 := by
  induction g generalizing p with
  | nil => rfl
  | cons dim g ih =>
    rw [List.foldl_cons, if_neg (by have := getD_nonneg h dim; omega)]
    exact ih _

theorem expandShapeSizes_of_nonneg (tsizes : List Int)
    (reassociation : List (List Nat)) {declared : List Int}
    (h : ∀ x ∈ declared, 0 ≤ x) :
    expandShapeSizes tsizes reassociation declared = declared := by
  unfold expandShapeSizes
  have key : ∀ (L : List (Nat × List Nat)),
      L.foldl (fun sizes p =>
        let g := expandGroup sizes (tsizes.getD p.1 0) p.2
        match g.2 with
        | some d => sizes.set d g.1
        | none => sizes) declared = declared := by
    intro L
    induction L with
    | nil => rfl
    | cons q L ih =>
      rw [List.foldl_cons]
      have hnone : (expandGroup declared (tsizes.getD q.1 0) q.2).2 = none :=
        expandGroup_snd_of_nonneg h q.2 _
      simp only [hnone]
      exact ih
  exact key _

theorem foldl_mul_getD_eq_prod (f : Nat → Int) (g : List Nat) :
    g.foldl (fun size dim => size * f dim) 1 = (g.map f).prod := by
  rw [List.prod_eq_foldl, List.foldl_map]

/-- The round trip of the shared reshape primitive: reshaping to any shape
with the same element count and back reproduces the tensor. -/
theorem reshape_roundtrip [Inhabited α] (t : Tensor α) (s2 : List Int)
    (hw : wf t) (hcount : numElements s2 = numElements t.sizes) :
    reshapeTensor (reshapeTensor t s2) t.sizes = t := by
  have h1 : rowMajorElements t = t.data := rowMajorElements_eq_data hw
  unfold reshapeTensor
  rw [h1]
  have hw2 : wf (⟨s2, t.data⟩ : Tensor α) := by
    simp only [wf]; rw [hw, hcount]
  rw [rowMajorElements_eq_data hw2]

/-- C4: reshaping a tensor from its shape to any shape of equal element count
and back (the shared primitive of collapse-shape and expand-shape) reproduces
the tensor, hence its row-major element sequence; and collapsing by a
reassociation grouping that partitions the dimensions in order, then expanding
back to the original (fully static) shape with the same grouping, also
reproduces the tensor exactly. -/
theorem reshape_roundtrip_rowMajor [Inhabited α] (t : Tensor α) (s2 : List Int)
    (reassociation : List (List Nat)) (hw : wf t)
    (hcount : numElements s2 = numElements t.sizes)
    (hpos : ∀ s ∈ t.sizes, 0 ≤ s)
    (hflat : reassociation.flatten = List.range t.sizes.length) :
    rowMajorElements (reshapeTensor (reshapeTensor t s2) t.sizes) =
      rowMajorElements t ∧
    reshapeTensor (reshapeTensor t s2) t.sizes = t ∧
    expandShape (collapseShape t reassociation) reassociation t.sizes = t := by
  have hrt := reshape_roundtrip t s2 hw hcount
  refine ⟨by rw [hrt], hrt, ?_⟩
  unfold collapseShape expandShape
  have hsizes : (reshapeTensor t (reassociation.map fun indices =>
      indices.foldl (fun size dim => size * t.sizes.getD dim 0) 1)).sizes =
      reassociation.map fun indices =>
        indices.foldl (fun size dim => size * t.sizes.getD dim 0) 1 := rfl
  rw [hsizes, expandShapeSizes_of_nonneg _ _ hpos]
  have hcs : (reassociation.map fun indices =>
      indices.foldl (fun size dim => size * t.sizes.getD dim 0) 1) =
      reassociation.map fun indices =>
        (indices.map fun dim => t.sizes.getD dim 0).prod := by
    apply List.map_congr_left
    intro g _
    exact foldl_mul_getD_eq_prod _ g
  have hprodeq : (reassociation.map fun indices =>
      indices.foldl (fun size dim => size * t.sizes.getD dim 0) 1).prod =
      t.sizes.prod := by
    rw [hcs]
    have e1 : (reassociation.map fun indices =>
        (indices.map fun dim => t.sizes.getD dim 0).prod) =
        (reassociation.map (List.map fun dim => t.sizes.getD dim 0)).map
          List.prod := by
      rw [List.map_map]; rfl
    rw [e1, ← List.prod_flatten,
      ← List.map_flatten (fun dim => t.sizes.getD dim 0) reassociation, hflat,
      map_getD_range]
  have hnn : ∀ x ∈ (reassociation.map fun indices =>
      indices.foldl (fun size dim => size * t.sizes.getD dim 0) 1), 0 ≤ x := by
    rw [hcs]
    intro x hx
    obtain ⟨g, _, rfl⟩ := List.mem_map.mp hx
    apply List.prod_nonneg
    intro a ha
    obtain ⟨d, _, rfl⟩ := List.mem_map.mp ha
    exact getD_nonneg hpos d
  have hc2 : numElements (reassociation.map fun indices =>
      indices.foldl (fun size dim => size * t.sizes.getD dim 0) 1) =
      numElements t.sizes := by
    have ha := prod_eq_cast_numElements hnn
    have hb := prod_eq_cast_numElements hpos
    rw [ha, hb] at hprodeq
    exact_mod_cast hprodeq
  exact reshape_roundtrip t _ hw hc2

/-- Witness for C4 at a concrete tensor, second shape, and reassociation. -/
theorem reshape_roundtrip_rowMajor_witness :
    reshapeTensor (reshapeTensor (⟨[2, 3], [0, 1, 2, 3, 4, 5]⟩ : Tensor Int)
      [6]) [2, 3] = ⟨[2, 3], [0, 1, 2, 3, 4, 5]⟩ ∧
    expandShape (collapseShape (⟨[2, 3], [0, 1, 2, 3, 4, 5]⟩ : Tensor Int)
      [[0, 1]]) [[0, 1]] [2, 3] = ⟨[2, 3], [0, 1, 2, 3, 4, 5]⟩ := by
  have h := reshape_roundtrip_rowMajor (⟨[2, 3], [0, 1, 2, 3, 4, 5]⟩ : Tensor Int)
    [6] [[0, 1]] rfl (by decide) (by decide) (by decide)
  exact ⟨h.2.1, h.2.2⟩

theorem headD_drop (l : List α) (n : Nat) (d : α) :
    (l.drop n).headD d = l.getD n d := by
  rw [List.headD_eq_head?_getD, List.head?_drop]
  exact (List.getD_eq_getElem?_getD l n d).symm

theorem eraseIdx_append_length (pre : List α) (x : α) (rest : List α) :
    (pre ++ x :: rest).eraseIdx pre.length = pre ++ rest := by
  induction pre with
  | nil => rfl
  | cons a pre ih =>
    rw [List.cons_append, List.length_cons, List.eraseIdx_cons_succ, ih,
      List.cons_append]

theorem length_rowMajorStrides (sizes : List Int) :
    (rowMajorStrides sizes).length = sizes.length := by
  induction sizes with
  | nil => rfl
  | cons s ss ih => simp [rowMajorStrides, ih]

theorem rankReduceSpec_szs_nil (a b strs : List Int) :
    rankReduceSpec a b [] strs = ([], strs) := by
  cases a <;> rfl

theorem rankReduceSpec_statics_nil (b szs strs : List Int) :
    rankReduceSpec [] b szs strs = (szs, strs) := by
  cases szs <;> cases strs <;> rfl

theorem rankReduceSpec_cons (st : Int) (sts b : List Int) (sz str : Int)
    (szs strs : List Int) :
    rankReduceSpec (st :: sts) b (sz :: szs) (str :: strs) =
      if st = 1 ∧ (b.length = 0 ∨ b.headD 0 ≠ 1) then
        rankReduceSpec sts b szs strs
      else (sz :: (rankReduceSpec sts (b.drop 1) szs strs).1,
        str :: (rankReduceSpec sts (b.drop 1) szs strs).2) := rfl

theorem dropUnitDims_eq_aux (statics results : List Int) (szs : List Int) :
    ∀ (strs pre preS : List Int) (n : Nat),
      preS.length = pre.length → strs.length = szs.length →
      dropUnitDims statics results n pre.length (pre ++ szs) (preS ++ strs) =
        (pre ++ (rankReduceSpec (statics.drop (n + pre.length))
          (results.drop pre.length) szs strs).1,
         preS ++ (rankReduceSpec (statics.drop (n + pre.length))
          (results.drop pre.length) szs strs).2) := by
  induction szs with
  | nil =>
    intro strs pre preS n h1 h2
    have hstrs : strs = [] := List.eq_nil_of_length_eq_zero h2
    subst hstrs
    rw [List.append_nil, List.append_nil, dropUnitDims, dif_neg (by omega),
      rankReduceSpec_szs_nil]
    simp
  | cons sz szs ih =>
    intro strs pre preS n h1 h2
    cases strs with
    | nil => exact absurd h2 (by simp)
    | cons str strs =>
      have h2' : strs.length = szs.length := by simpa using h2
      have hlt : pre.length < (pre ++ sz :: szs).length := by
        rw [List.length_append, List.length_cons]; omega
      rw [dropUnitDims, dif_pos hlt]
      rcases hdrop : statics.drop (n + pre.length) with _ | ⟨st, sts⟩
      · have hgetD : statics.getD (n + pre.length) 0 = 0 := by
          rw [← headD_drop, hdrop]; rfl
        rw [if_neg (by rw [hgetD]; simp)]
        have e1 : pre ++ sz :: szs = (pre ++ [sz]) ++ szs := by simp
        have e2 : preS ++ str :: strs = (preS ++ [str]) ++ strs := by simp
        have e3 : pre.length + 1 = (pre ++ [sz]).length := by simp
        rw [e1, e2, e3, ih strs (pre ++ [sz]) (preS ++ [str]) n (by simp [h1]) h2']
        have hd1 : statics.drop (n + (pre ++ [sz]).length) = [] := by
          apply List.drop_eq_nil_of_le
          have : (statics.drop (n + pre.length)).length = 0 := by
            rw [hdrop]; rfl
          rw [List.length_drop] at this
          simp only [List.length_append, List.length_singleton]
          omega
        rw [hd1, rankReduceSpec_statics_nil, rankReduceSpec_statics_nil]
        simp
      · have hst : statics.getD (n + pre.length) 0 = st := by
          rw [← headD_drop, hdrop]; rfl
        have hsts : statics.drop (n + pre.length + 1) = sts := by
          have hdd := List.drop_drop 1 (n + pre.length) statics
          rw [hdrop] at hdd
          simpa using hdd.symm
        have hcond : (statics.getD (n + pre.length) 0 = 1 ∧
            (results.length ≤ pre.length ∨ results.getD pre.length 0 ≠ 1)) ↔
            (st = 1 ∧ ((results.drop pre.length).length = 0 ∨
              (results.drop pre.length).headD 0 ≠ 1)) := by
          rw [hst, List.length_drop, headD_drop]
          constructor
          · rintro ⟨ha, hb⟩
            refine ⟨ha, ?_⟩
            rcases hb with hb | hb
            · left; omega
            · right; exact hb
          · rintro ⟨ha, hb⟩
            refine ⟨ha, ?_⟩
            rcases hb with hb | hb
            · left; omega
            · right; exact hb
        rw [rankReduceSpec_cons]
        by_cases hC : st = 1 ∧ ((results.drop pre.length).length = 0 ∨
            (results.drop pre.length).headD 0 ≠ 1)
        · rw [if_pos (hcond.mpr hC), if_pos hC]
          have estr : (preS ++ str :: strs).eraseIdx pre.length =
              preS ++ strs := by
            rw [← h1, eraseIdx_append_length]
          rw [eraseIdx_append_length, estr,
            ih strs pre preS (n + 1) h1 h2']
          have : n + 1 + pre.length = n + pre.length + 1 := by omega
          rw [this, hsts]
        · rw [if_neg (fun hc => hC (hcond.mp hc)), if_neg hC]
          have e1 : pre ++ sz :: szs = (pre ++ [sz]) ++ szs := by simp
          have e2 : preS ++ str :: strs = (preS ++ [str]) ++ strs := by simp
          have e3 : pre.length + 1 = (pre ++ [sz]).length := by simp
          rw [e1, e2, e3,
            ih strs (pre ++ [sz]) (preS ++ [str]) n (by simp [h1]) h2']
          have e4 : n + (pre ++ [sz]).length = n + pre.length + 1 := by
            simp only [List.length_append, List.length_singleton]; omega
          have e5 : results.drop (pre ++ [sz]).length =
              (results.drop pre.length).drop 1 := by
            rw [List.drop_drop]
            simp [List.length_append]
          rw [e4, e5, hsts]
          simp

theorem dropUnitDims_eq_rankReduceSpec (staticSizes resultShape sizes strides :
    List Int) (hlen : strides.length = sizes.length) :
    dropUnitDims staticSizes resultShape 0 0 sizes strides =
      rankReduceSpec staticSizes resultShape sizes strides := by
  have h := dropUnitDims_eq_aux staticSizes resultShape sizes strides [] [] 0
    rfl hlen
  simpa using h

/-- C5: after copying the slice contents, `extractSlice` removes from the
output view exactly those dimensions whose static size attribute is 1 and
which are not present with size 1 at the corresponding position of the
declared result shape: its erase loop coincides, on every input, with the
dimension-by-dimension in-order transcription `rankReduceSpec` (which deletes
the size and stride entry of each such dimension and consumes one declared
result position per kept dimension), and the sizes of `extractSlice`'s output
are those the transcription computes. -/
theorem extractSlice_rank_reduction (staticSizes resultShape sizes strides :
    List Int) (hlen : strides.length = sizes.length) :
    dropUnitDims staticSizes resultShape 0 0 sizes strides =
      rankReduceSpec staticSizes resultShape sizes strides ∧
    ∀ (t : Tensor Int) (offsets strides2 : List Int),
      (extractSlice t offsets sizes strides2 staticSizes resultShape).sizes =
        (rankReduceSpec staticSizes resultShape sizes
          (rowMajorStrides sizes)).1 := by
  refine ⟨dropUnitDims_eq_rankReduceSpec _ _ _ _ hlen, ?_⟩
  intro t offsets strides2
  have e : (extractSlice t offsets sizes strides2 staticSizes
      resultShape).sizes =
      (dropUnitDims staticSizes resultShape 0 0 sizes
        (rowMajorStrides sizes)).1 := rfl
  rw [e, dropUnitDims_eq_rankReduceSpec _ _ _ _ (length_rowMajorStrides sizes)]

/-- Witness for C5 at a concrete slice with a dropped leading unit dimension. -/
theorem extractSlice_rank_reduction_witness :
    dropUnitDims [1, 2] [2] 0 0 [1, 2] [2, 1] =
      rankReduceSpec [1, 2] [2] [1, 2] [2, 1] ∧
    (extractSlice (⟨[1, 2], [10, 20]⟩ : Tensor Int) [0, 0] [1, 2] [2, 1] [1, 2]
      [2]).sizes =
      (rankReduceSpec [1, 2] [2] [1, 2] (rowMajorStrides [1, 2])).1 := by
  have h := extractSlice_rank_reduction [1, 2] [2] [1, 2] [2, 1] (by decide)
  exact ⟨h.1, h.2 ⟨[1, 2], [10, 20]⟩ [0, 0] [2, 1]⟩

theorem natCast_tdiv (m n : Nat) : (↑m : Int).tdiv ↑n = ↑(m / n) := rfl

theorem tdiv_tdiv_of_pos (a : Int) {b c : Int} (ha : 0 ≤ a) (hb : 0 < b)
    (hc : 0 < c) : (a.tdiv b).tdiv c = a.tdiv (b * c) := by
  lift a to Nat using ha with m
  lift b to Nat using le_of_lt hb with y
  lift c to Nat using le_of_lt hc with z
  rw [← Nat.cast_mul, natCast_tdiv, natCast_tdiv, natCast_tdiv,
    Nat.div_div_eq_div_mul]

theorem foldl_tdiv_eq_tdiv_prod (l : List Int) (a : Int) (ha : 0 ≤ a)
    (hl : ∀ x ∈ l, 0 < x) : l.foldl Int.tdiv a = a.tdiv l.prod := by
  induction l generalizing a with
  | nil => simp [Int.tdiv_one]
  | cons x l ih =>
    rw [List.foldl_cons, List.prod_cons]
    have hx : 0 < x := hl x (by simp)
    have hrest : ∀ y ∈ l, 0 < y := fun y hy => hl y (by simp [hy])
    rw [ih (a.tdiv x) (Int.tdiv_nonneg ha (le_of_lt hx)) hrest]
    exact tdiv_tdiv_of_pos a ha hx (List.prod_pos hrest)

theorem expandGroup_foldl_pos {sizes : List Int} (g : List Nat)
    (hpos : ∀ dim ∈ g, 0 < sizes.getD dim 0) (p : Int × Option Nat) :
    g.foldl (fun p dim =>
      if sizes.getD dim 0 < 0 then (p.1, some dim)
      else (p.1.tdiv (sizes.getD dim 0), p.2)) p =
    ((g.map fun dim => sizes.getD dim 0).foldl Int.tdiv p.1, p.2) := by
  induction g generalizing p with
  | nil => rfl
  | cons dim g ih =>
    rw [List.foldl_cons, if_neg (by have := hpos dim (by simp); omega),
      List.map_cons, List.foldl_cons]
    exact ih (fun d hd => hpos d (by simp [hd])) _

/-- C6: in `expandShape`, a group with (at most) one dynamic (negative) size
at position `d` is solved as the group's input size integer-divided by the
product of the group's statically known sizes, the solved value replacing the
sentinel in the declared shape; in particular, expanding a `[6]` tensor with
reassociation `[[0, 1]]` and declared output shape `[2, -1]` yields a tensor
of shape `[2, 3]` with the row-major contents unchanged. -/
theorem expandShape_dynamic_group (tsizes declared : List Int)
    (g1 g2 : List Nat) (d : Nat)
    (hd : declared.getD d 0 < 0)
    (h1 : ∀ dim ∈ g1, 0 < declared.getD dim 0)
    (h2 : ∀ dim ∈ g2, 0 < declared.getD dim 0)
    (hin : 0 ≤ tsizes.getD 0 0) :
    expandShapeSizes tsizes [g1 ++ d :: g2] declared =
      declared.set d ((tsizes.getD 0 0).tdiv
        (((g1 ++ g2).map fun dim => declared.getD dim 0).prod)) ∧
    (expandShape (⟨[6], [0, 1, 2, 3, 4, 5]⟩ : Tensor Int) [[0, 1]]
      [2, -1]).sizes = [2, 3] ∧
    (expandShape (⟨[6], [0, 1, 2, 3, 4, 5]⟩ : Tensor Int) [[0, 1]]
      [2, -1]).data = [0, 1, 2, 3, 4, 5] := by
  refine ⟨?_, by decide, by decide⟩
  have hp1 : ∀ x ∈ g1.map fun dim => declared.getD dim 0, 0 < x := by
    intro x hx
    obtain ⟨dim, hdim, rfl⟩ := List.mem_map.mp hx
    exact h1 dim hdim
  have hp2 : ∀ x ∈ g2.map fun dim => declared.getD dim 0, 0 < x := by
    intro x hx
    obtain ⟨dim, hdim, rfl⟩ := List.mem_map.mp hx
    exact h2 dim hdim
  have hgroup : expandGroup declared (tsizes.getD 0 0) (g1 ++ d :: g2) =
      ((tsizes.getD 0 0).tdiv
        (((g1 ++ g2).map fun dim => declared.getD dim 0).prod), some d) := by
    unfold expandGroup
    rw [List.foldl_append, expandGroup_foldl_pos g1 h1, List.foldl_cons,
      if_pos hd, expandGroup_foldl_pos g2 h2]
    have hval : (g2.map fun dim => declared.getD dim 0).foldl Int.tdiv
        (((g1.map fun dim => declared.getD dim 0).foldl Int.tdiv
          (tsizes.getD 0 0))) =
        (tsizes.getD 0 0).tdiv
          (((g1 ++ g2).map fun dim => declared.getD dim 0).prod) := by
      rw [foldl_tdiv_eq_tdiv_prod _ _ hin hp1,
        foldl_tdiv_eq_tdiv_prod _ _
          (Int.tdiv_nonneg hin (le_of_lt (List.prod_pos hp1))) hp2,
        tdiv_tdiv_of_pos _ hin (List.prod_pos hp1) (List.prod_pos hp2),
        ← List.prod_append, ← List.map_append]
    rw [hval]
  unfold expandShapeSizes
  have henum : ([g1 ++ d :: g2] : List (List Nat)).enum = [(0, g1 ++ d :: g2)] :=
    rfl
  rw [henum, List.foldl_cons, List.foldl_nil]
  simp only [hgroup]

/-- Witness for C6 at the concrete scenario shape solving `[2, -1]` to
`[2, 3]`. -/
theorem expandShape_dynamic_group_witness :
    expandShapeSizes [6] [[0, 1]] [2, -1] = [2, 3] := by
  have h := (expandShape_dynamic_group [6] [2, -1] [0] [] 1 (by decide)
    (by decide) (by decide) (by decide)).1
  exact h.trans (by decide)

end TensorInterp
